import Mathlib

/-!
Verification of the fuzzy field-matching engine of `claude-limits`
(package `internal/fuzzy`): number expansion, scoring, flattening and
best-match selection, embedded shallowly over `List Char` strings.

Go strings are byte sequences; all string operations the engine uses
(`ReplaceAll`, `Contains`, `HasSuffix`, `ToLower`, rune iteration) are
modelled here at the level of unicode scalar characters (`List Char`),
which coincides with the byte-level Go semantics on ASCII data.
-/

namespace ClaudeLimits
namespace Fuzzy

/-- Strings, modelled as lists of characters. -/
abbrev Str := List Char

/-- One step engine for Go `strings.ReplaceAll(s, pat, rep)`: replaces
non-overlapping occurrences of `pat` left to right.  The extra `Nat`
argument is structural fuel; every step consumes at least one character
of `s`, so fuel `s.length` always suffices (see `replaceAll`).  Empty
patterns never occur in this code base; on them this model is the
identity. -/
def replaceAllF (pat rep : Str) : Nat → Str → Str
  | _, [] => []
  | 0, s => s
  | fuel + 1, c :: cs =>
    if pat ≠ [] ∧ pat.isPrefixOf (c :: cs) then
      rep ++ replaceAllF pat rep fuel ((c :: cs).drop pat.length)
    else
      c :: replaceAllF pat rep fuel cs

/-- Go `strings.ReplaceAll(s, pat, rep)`. -/
def replaceAll (pat rep s : Str) : Str :=
  replaceAllF pat rep s.length s

/-- The map `numberWords` of the source: arabic numerals to english words. -/
def numberWords : List (Str × Str) :=
  [(("0").data, ("zero").data), (("1").data, ("one").data),
   (("2").data, ("two").data), (("3").data, ("three").data),
   (("4").data, ("four").data), (("5").data, ("five").data),
   (("6").data, ("six").data), (("7").data, ("seven").data),
   (("8").data, ("eight").data), (("9").data, ("nine").data),
   (("10").data, ("ten").data), (("11").data, ("eleven").data),
   (("12").data, ("twelve").data), (("13").data, ("thirteen").data),
   (("14").data, ("fourteen").data), (("15").data, ("fifteen").data),
   (("16").data, ("sixteen").data), (("17").data, ("seventeen").data),
   (("18").data, ("eighteen").data), (("19").data, ("nineteen").data),
   (("20").data, ("twenty").data), (("24").data, ("twentyfour").data),
   (("30").data, ("thirty").data), (("48").data, ("fortyeight").data),
   (("72").data, ("seventytwo").data)]

/-- The word the table associates to a key (`numberWords[num]` in Go). -/
def wordFor (k : Str) : Str :=
  ((numberWords.lookup k).getD [])

/-- The source builds `numberWordKeys` by sorting the map's keys by length
descending with an unstable sort over a randomized map iteration order:
the relative order of equal-length keys is unspecified.  This is one
fixed ordering consistent with that sort (all two-character keys first,
then the one-character keys). -/
def numberWordKeys : List Str :=
  [("10").data, ("11").data, ("12").data, ("13").data, ("14").data,
   ("15").data, ("16").data, ("17").data, ("18").data, ("19").data,
   ("20").data, ("24").data, ("30").data, ("48").data, ("72").data,
   ("0").data, ("1").data, ("2").data, ("3").data, ("4").data,
   ("5").data, ("6").data, ("7").data, ("8").data, ("9").data]

/-- `ExpandNumbers` with an explicit key ordering, to reason about the
unspecified order among equal-length keys. -/
def ExpandNumbersWith (keys : List Str) (s : Str) : Str :=
  keys.foldl (fun result num => replaceAll num (wordFor num) result) s

/-- Go `ExpandNumbers`: converts arabic numerals to english words. -/
def ExpandNumbers (s : Str) : Str :=
  ExpandNumbersWith numberWordKeys s

/-- Go `strings.Contains(hay, needle)`: `needle` occurs contiguously in
`hay`. -/
def containsStr (hay needle : Str) : Bool :=
  match hay with
  | [] => needle.isEmpty
  | _ :: t => needle.isPrefixOf hay || containsStr t needle

/-- `findChar c t` models the inner loop of the subsequence walk of
`Score`: the offset of the first occurrence of `c` in `t` and the
remainder of `t` after it. -/
def findChar (c : Char) : Str → Option (Nat × Str)
  | [] => none
  | x :: xs =>
    if x = c then some (0, xs)
    else (findChar c xs).map (fun p => (p.1 + 1, p.2))

/-- The subsequence walk of `Score` (step 5): cursor-based left-to-right
matching of every query character, 10 points each plus 5 when the match
is at absolute position 0; `none` when some character is never found. -/
def subseqWalk : Str → Str → Nat → Option Nat
  | [], _, _ => some 0
  | c :: qs, t, pos =>
    match findChar c t with
    | none => none
    | some (i, rest) =>
      (subseqWalk qs rest (pos + i + 1)).map
        (fun sc => sc + 10 + (if pos + i = 0 then 5 else 0))

/-- `strings.ReplaceAll(s, "_", "")`: the underscore-stripping half of the
normalization in `Score`. -/
def stripUnderscores (s : Str) : Str :=
  replaceAll ['_'] [] s

/-- Go `Score`, parametrized by the numeral-key ordering used by number
expansion (the source's ordering among equal-length keys is
unspecified). -/
def ScoreWith (keys : List Str) (query target : Str) : Nat :=
  if query = [] then 0
  else
    let normalizedQuery := stripUnderscores (ExpandNumbersWith keys query)
    let normalizedTarget := stripUnderscores target
    if normalizedTarget = normalizedQuery then 1000
    else if containsStr normalizedTarget normalizedQuery then
      500 + normalizedQuery.length +
        (if normalizedQuery.isSuffixOf normalizedTarget then 100 else 0)
    else
      match subseqWalk normalizedQuery normalizedTarget 0 with
      | some sc => sc
      | none => 0

/-- Go `Score query target`: non-negative match quality, 0 meaning no
match. -/
def Score (query target : Str) : Nat :=
  ScoreWith numberWordKeys query target

/-- JSON-like documents: the generic `interface{}` tree the engine
receives.  Mappings are modelled as association lists (one fixed
iteration order standing for Go's arbitrary map order); numbers as
rationals (their value is only carried, never computed with). -/
inductive JValue where
  | jnull : JValue
  | jbool (b : Bool) : JValue
  | jnum (q : Rat) : JValue
  | jstr (s : Str) : JValue
  | obj (fields : List (Str × JValue)) : JValue
  | arr (elems : List JValue) : JValue

/-- The source's `KeyValue`: a flattened key-value pair. -/
structure KeyValue where
  Path : Str
  Key : Str
  Value : JValue

/-- Decimal digit to its character, as Go's `%d` prints it. -/
def digitChar : Nat → Char
  | 0 => '0'
  | 1 => '1'
  | 2 => '2'
  | 3 => '3'
  | 4 => '4'
  | 5 => '5'
  | 6 => '6'
  | 7 => '7'
  | 8 => '8'
  | _ => '9'

/-- Decimal rendering of a natural number, most significant digit first,
with structural fuel (fuel `n` suffices for input `n`, see
`natToDigits`): the `%d` verb of Go's `fmt.Sprintf`. -/
def natToDigitsF : Nat → Nat → Str
  | 0, n => [digitChar (n % 10)]
  | fuel + 1, n =>
    if n < 10 then [digitChar n]
    else natToDigitsF fuel (n / 10) ++ [digitChar (n % 10)]

/-- Go `fmt.Sprintf("%d", n)` for a natural number. -/
def natToDigits (n : Nat) : Str :=
  natToDigitsF n n

mutual
/-- Go `FlattenData(data, prefix)`: recursively flattens nested JSON data
into key-value pairs.  Mapping iteration follows the association-list
order (Go's map order is arbitrary). -/
def FlattenData : List (Str × JValue) → Str → List KeyValue
  | [], _ => []
  | (key, value) :: rest, pre =>
    (let path := if pre = [] then key else pre ++ '_' :: key
     match value with
     | .obj f => FlattenData f path
     | .arr elems => flattenArr elems path 1
     | .jnull => []
     | v => [⟨path, key, v⟩]) ++ FlattenData rest pre

/-- The `[]interface{}` case of `FlattenData`: mapping-shaped elements
recurse with a 1-based index appended to the path, all other elements
are skipped. -/
def flattenArr : List JValue → Str → Nat → List KeyValue
  | [], _, _ => []
  | item :: rest, path, i =>
    (match item with
     | .obj m => FlattenData m (path ++ '_' :: natToDigits i)
     | _ => []) ++ flattenArr rest path (i + 1)
end

/-- The sentinel `ErrNoMatch` of `internal/errors` (the only sentinel the
fuzzy engine uses). -/
inductive ErrKind where
  | errNoMatch
deriving DecidableEq

/-- `QueryError` of `internal/errors`: a query error wrapping a sentinel. -/
structure QueryError where
  Query : Str
  Err : ErrKind
deriving DecidableEq

/-- `NewQueryError` of `internal/errors`. -/
def NewQueryError (query : Str) (err : ErrKind) : QueryError :=
  ⟨query, err⟩

/-- Go `strings.ToLower`, modelled characterwise (ASCII-faithful). -/
def toLowerStr (s : Str) : Str :=
  s.map Char.toLower

/-- The accumulation loop of `FindBestMatch`: tracks the best match and
best score seen so far, updating only on strictly greater scores. -/
def findBestAux (queryLower : Str) : List KeyValue → Option KeyValue → Nat →
    Option KeyValue × Nat
  | [], best, bestScore => (best, bestScore)
  | p :: ps, best, bestScore =>
    let sc := Score queryLower (toLowerStr p.Path)
    if bestScore < sc then findBestAux queryLower ps (some p) sc
    else findBestAux queryLower ps best bestScore

/-- Go `FindBestMatch(pairs, query)`: the best matching field for a
query, or a `QueryError` wrapping `ErrNoMatch` when the best score is 0
or no entries exist. -/
def FindBestMatch (pairs : List KeyValue) (query : Str) : Except QueryError KeyValue :=
  match findBestAux (toLowerStr query) pairs none 0 with
  | (none, _) => .error (NewQueryError query .errNoMatch)
  | (some bestMatch, bestScore) =>
    if bestScore = 0 then .error (NewQueryError query .errNoMatch)
    else .ok bestMatch

/-- First character of every numeral key is an ASCII digit. -/
def headIsDigit : Str → Bool
  | [] => false
  | d :: _ => d.isDigit

/-- A key ordering the source's unstable length-descending sort could
produce: a permutation of the table's keys that is sorted by length
descending. -/
def validKeyOrder (keys : List Str) : Prop :=
  keys.Perm numberWordKeys ∧ List.Pairwise (fun a b : Str => b.length ≤ a.length) keys

/-- The canonical ordering with the equal-length keys `"10"` and `"11"`
swapped: another ordering the source's unstable sort could produce. -/
def numberWordKeysAlt : List Str :=
  [("11").data, ("10").data, ("12").data, ("13").data, ("14").data,
   ("15").data, ("16").data, ("17").data, ("18").data, ("19").data,
   ("20").data, ("24").data, ("30").data, ("48").data, ("72").data,
   ("0").data, ("1").data, ("2").data, ("3").data, ("4").data,
   ("5").data, ("6").data, ("7").data, ("8").data, ("9").data]

mutual
/-- The spec's count of non-null scalar leaves of a document: scalar
leaves inside nested mappings and mapping-shaped array elements are
counted, non-mapping array elements and null leaves are not.  Stated
from the spec's words as the refinement target for the flattener's
output length. -/
def specScalarLeafCount : List (Str × JValue) → Nat
  | [] => 0
  | (_, v) :: rest =>
    (match v with
     | .obj f => specScalarLeafCount f
     | .arr es => specArrLeafCount es
     | .jnull => 0
     | _ => 1) + specScalarLeafCount rest

/-- The array case of `specScalarLeafCount`: only mapping-shaped
elements contribute. -/
def specArrLeafCount : List JValue → Nat
  | [] => 0
  | e :: es =>
    (match e with
     | .obj m => specScalarLeafCount m
     | _ => 0) + specArrLeafCount es
end

/-- A scalar value: not a mapping, not a sequence, not null. -/
def isScalar : JValue → Bool
  | .obj _ => false
  | .arr _ => false
  | .jnull => false
  | _ => true

/-- A key that cannot collide with the path separator: nonempty and
underscore-free. -/
def goodKey (k : Str) : Bool :=
  !k.isEmpty && k.all (fun c => !(c == '_'))

mutual
/-- Well-formed field lists: every key is `goodKey`, keys are pairwise
distinct within each mapping (as Go map keys are), and all nested
values are well-formed. -/
def wfFields : List (Str × JValue) → Bool
  | [] => true
  | (k, v) :: rest =>
    goodKey k && wfVal v && rest.all (fun p => !(p.1 == k)) && wfFields rest

/-- Well-formed values (see `wfFields`). -/
def wfVal : JValue → Bool
  | .obj f => wfFields f
  | .arr es => wfElems es
  | _ => true

/-- Well-formed array elements: mapping-shaped elements are well-formed
(other elements are skipped by the flattener and unconstrained). -/
def wfElems : List JValue → Bool
  | [] => true
  | e :: es => (match e with | .obj m => wfFields m | _ => true) && wfElems es
end

/-- The head token of a path: everything before the first underscore. -/
def headTok (s : Str) : Str :=
  s.takeWhile (fun c => !(c == '_'))

/-- A path-suffix is either empty or starts with the separator. -/
def underscoreSuffix (s : Str) : Prop :=
  s = [] ∨ ∃ t, s = '_' :: t

/-- Decimal parsing, the left inverse of `natToDigits`. -/
def digitsVal (s : Str) : Nat :=
  s.foldl (fun a c => a * 10 + (c.toNat - 48)) 0

/-- If the first character of the pattern never occurs in `s`,
replacement leaves `s` unchanged. -/
theorem replaceAllF_eq_of_head_not_mem (d : Char) (pat' rep : Str) (fuel : Nat) :
    ∀ s : Str, d ∉ s → replaceAllF (d :: pat') rep fuel s = s := by
  induction fuel with
  | zero => intro s _; cases s <;> rfl
  | succ fuel ih =>
    intro s hs
    cases s with
    | nil => rfl
    | cons c cs =>
      have hdc : d ≠ c := by
        rintro rfl; exact hs (List.mem_cons_self ..)
      rw [replaceAllF, if_neg (by simp [List.isPrefixOf, hdc])]
      exact congrArg (c :: ·) (ih cs (fun h => hs (List.mem_cons_of_mem _ h)))

/-- `replaceAll` version of `replaceAllF_eq_of_head_not_mem`. -/
theorem replaceAll_eq_of_head_not_mem (d : Char) (pat' rep : Str) (s : Str)
    (hs : d ∉ s) : replaceAll (d :: pat') rep s = s :=
  replaceAllF_eq_of_head_not_mem d pat' rep s.length s hs

/-- Replacement with a replacement string avoiding `c` introduces no new
occurrence of `c`. -/
theorem not_mem_replaceAllF (c : Char) (pat rep : Str) (fuel : Nat) :
    ∀ s : Str, c ∉ s → c ∉ rep → c ∉ replaceAllF pat rep fuel s := by
  induction fuel with
  | zero => intro s hs _; cases s with
    | nil => exact hs
    | cons x xs => exact hs
  | succ fuel ih =>
    intro s hs hrep
    cases s with
    | nil => exact hs
    | cons x xs =>
      rw [replaceAllF]
      by_cases hc : pat ≠ [] ∧ pat.isPrefixOf (x :: xs)
      · rw [if_pos hc]
        intro hmem
        rcases List.mem_append.1 hmem with h | h
        · exact hrep h
        · exact ih _ (fun hm => hs (List.drop_subset _ _ hm)) hrep h
      · rw [if_neg hc]
        intro hmem
        rcases List.mem_cons.1 hmem with rfl | h
        · exact hs (List.mem_cons_self ..)
        · exact ih xs (fun hm => hs (List.mem_cons_of_mem _ hm)) hrep h

/-- Replacing the single-character pattern `[c]` by a `c`-free word
removes every occurrence of `c`, given enough fuel. -/
theorem not_mem_replaceAllF_single (c : Char) (rep : Str) (fuel : Nat) :
    ∀ s : Str, s.length ≤ fuel → c ∉ rep → c ∉ replaceAllF [c] rep fuel s := by
  induction fuel with
  | zero =>
    intro s hlen _
    have : s = [] := List.eq_nil_of_length_eq_zero (Nat.le_zero.1 hlen)
    subst this; exact List.not_mem_nil c
  | succ fuel ih =>
    intro s hlen hrep
    cases s with
    | nil => exact List.not_mem_nil c
    | cons x xs =>
      rw [replaceAllF]
      by_cases hx : x = c
      · subst hx
        rw [if_pos (by simp [List.isPrefixOf])]
        intro hmem
        rcases List.mem_append.1 hmem with h | h
        · exact hrep h
        · exact ih xs (by simpa using hlen) hrep (by simpa using h)
      · rw [if_neg (by simp [List.isPrefixOf]; intro h; exact absurd h.symm hx)]
        intro hmem
        rcases List.mem_cons.1 hmem with rfl | h
        · exact hx rfl
        · exact ih xs (by simpa using hlen) hrep h

/-- Single-character elimination, `replaceAll` version. -/
theorem not_mem_replaceAll_single (c : Char) (rep s : Str) (hrep : c ∉ rep) :
    c ∉ replaceAll [c] rep s :=
  not_mem_replaceAllF_single c rep s.length s le_rfl hrep

theorem numberWordKeys_heads : ∀ k ∈ numberWordKeys, headIsDigit k = true := by
  decide

theorem numberWordKeys_words_digit_free :
    ∀ k ∈ numberWordKeys, ∀ c ∈ wordFor k, c.isDigit = false := by
  decide

/-- Replacing keys whose first characters are digits leaves a digit-free
string unchanged (each pass finds no occurrence). -/
theorem expandNumbersWith_eq_of_digit_free (keys : List Str)
    (hk : ∀ k ∈ keys, headIsDigit k = true) (s : Str)
    (hs : ∀ c ∈ s, c.isDigit = false) : ExpandNumbersWith keys s = s := by
  induction keys with
  | nil => rfl
  | cons k ks ih =>
    have hstep : replaceAll k (wordFor k) s = s := by
      cases k with
      | nil => exact absurd (hk [] (List.mem_cons_self ..)) (by simp [headIsDigit])
      | cons d t =>
        refine replaceAll_eq_of_head_not_mem d t _ s (fun hd => ?_)
        have h1 : d.isDigit = true := by simpa [headIsDigit] using hk _ (List.mem_cons_self ..)
        rw [hs d hd] at h1
        exact Bool.false_ne_true h1
    rw [ExpandNumbersWith, List.foldl_cons, hstep]
    exact ih (fun k hm => hk k (List.mem_cons_of_mem _ hm))

/-- C7 — Number expansion is the identity on digit-free strings: for
every string containing no ASCII digit character, `ExpandNumbers`
returns it unchanged. -/
theorem expandNumbers_id_of_digit_free (s : Str)
    (hs : ∀ c ∈ s, c.isDigit = false) : ExpandNumbers s = s :=
  expandNumbersWith_eq_of_digit_free numberWordKeys numberWordKeys_heads s hs

/-- Witness for `expandNumbers_id_of_digit_free` at a concrete digit-free
string. -/
theorem expandNumbers_id_of_digit_free_witness :
    ExpandNumbers (("no numbers").data) = ("no numbers").data :=
  expandNumbers_id_of_digit_free (("no numbers").data) (by decide)

/-- C6 — Longest-numeral-first substitution: `ExpandNumbers "24"` is
`"twentyfour"` (the two-digit numeral is substituted as a whole), and
the key ordering used by expansion is sorted by length descending. -/
theorem expandNumbers_24_longest_first :
    ExpandNumbers (("24").data) = ("twentyfour").data ∧
      List.Pairwise (fun a b : Str => b.length ≤ a.length) numberWordKeys := by
  constructor
  · decide
  · decide

/-- An ASCII digit character is one of the ten characters `0` through
`9`. -/
theorem isDigit_char_cases (c : Char) (h : c.isDigit = true) :
    c = '0' ∨ c = '1' ∨ c = '2' ∨ c = '3' ∨ c = '4' ∨
      c = '5' ∨ c = '6' ∨ c = '7' ∨ c = '8' ∨ c = '9' := by
  have hb : (48 ≤ c.val.toNat) ∧ (c.val.toNat ≤ 57) := by
    simp only [Char.isDigit, Bool.and_eq_true, decide_eq_true_eq] at h
    exact ⟨h.1, h.2⟩
  have hc : ∀ d : Char, c.val.toNat = d.val.toNat → c = d :=
    fun d h => Char.ext (UInt32.ext h)
  have hn : c.val.toNat = 48 ∨ c.val.toNat = 49 ∨ c.val.toNat = 50 ∨
      c.val.toNat = 51 ∨ c.val.toNat = 52 ∨ c.val.toNat = 53 ∨ c.val.toNat = 54 ∨
      c.val.toNat = 55 ∨ c.val.toNat = 56 ∨ c.val.toNat = 57 := by omega
  rcases hn with h | h | h | h | h | h | h | h | h | h
  · have hce := hc '0' (by rw [h]; decide); subst hce; decide
  · have hce := hc '1' (by rw [h]; decide); subst hce; decide
  · have hce := hc '2' (by rw [h]; decide); subst hce; decide
  · have hce := hc '3' (by rw [h]; decide); subst hce; decide
  · have hce := hc '4' (by rw [h]; decide); subst hce; decide
  · have hce := hc '5' (by rw [h]; decide); subst hce; decide
  · have hce := hc '6' (by rw [h]; decide); subst hce; decide
  · have hce := hc '7' (by rw [h]; decide); subst hce; decide
  · have hce := hc '8' (by rw [h]; decide); subst hce; decide
  · have hce := hc '9' (by rw [h]; decide); subst hce; decide

/-- Every single digit character, as a one-character string, is a key of
the numeral table. -/
theorem digit_singleton_mem_keys (c : Char) (h : c.isDigit = true) :
    [c] ∈ numberWordKeys := by
  rcases isDigit_char_cases c h with rfl | rfl | rfl | rfl | rfl | rfl | rfl | rfl | rfl | rfl <;>
    decide

/-- Folding replacement passes whose replacement words avoid `c`
preserves absence of `c`. -/
theorem not_mem_foldl_replace (c : Char) (keys : List Str) :
    ∀ acc : Str, c ∉ acc → (∀ k ∈ keys, c ∉ wordFor k) →
      c ∉ keys.foldl (fun result num => replaceAll num (wordFor num) result) acc := by
  induction keys with
  | nil => intro acc hacc _; exact hacc
  | cons k ks ih =>
    intro acc hacc hw
    rw [List.foldl_cons]
    refine ih _ ?_ (fun k' hk' => hw k' (List.mem_cons_of_mem _ hk'))
    exact not_mem_replaceAllF c k _ acc.length acc hacc (hw k (List.mem_cons_self ..))

/-- C9 — `ExpandNumbers` output contains no ASCII digit: every single
digit is a key of the numeral table and every replacement word is
digit-free, so expansion eliminates all digits from any input. -/
theorem expandNumbers_eliminates_digits (s : Str) (c : Char)
    (hc : c ∈ ExpandNumbers s) : c.isDigit = false := by
  by_contra hdig
  have hdig' : c.isDigit = true := by
    cases h : c.isDigit
    · exact absurd h hdig
    · rfl
  obtain ⟨l1, l2, hsplit⟩ := List.append_of_mem (digit_singleton_mem_keys c hdig')
  have hw : c ∉ wordFor [c] := fun hmem => by
    have := numberWordKeys_words_digit_free [c] (digit_singleton_mem_keys c hdig') c hmem
    rw [hdig'] at this
    exact Bool.false_ne_true this.symm
  have : c ∉ ExpandNumbers s := by
    rw [ExpandNumbers, ExpandNumbersWith, hsplit, List.foldl_append, List.foldl_cons]
    refine not_mem_foldl_replace c l2 _ ?_ ?_
    · exact not_mem_replaceAll_single c _ _ hw
    · intro k hk
      intro hmem
      have hkk : k ∈ numberWordKeys := by
        rw [hsplit]
        exact List.mem_append.2 (Or.inr (List.mem_cons_of_mem _ hk))
      have := numberWordKeys_words_digit_free k hkk c hmem
      rw [hdig'] at this
      exact Bool.false_ne_true this.symm
  exact this hc

/-- Witness for `expandNumbers_eliminates_digits` at a concrete input. -/
theorem expandNumbers_eliminates_digits_witness :
    Char.isDigit 'f' = false :=
  expandNumbers_eliminates_digits (("5").data) 'f' (by decide)

/-- C8 counterexample — two length-descending orderings of the numeral
table that differ only in the relative order of the equal-length keys
`"10"` and `"11"` give different `ExpandNumbers` results, and different
scores, on the query `"110"`. -/
theorem score_order_dependence_counterexample :
    validKeyOrder numberWordKeys ∧ validKeyOrder numberWordKeysAlt ∧
      ExpandNumbersWith numberWordKeys (("110").data) = ("oneten").data ∧
      ExpandNumbersWith numberWordKeysAlt (("110").data) = ("elevenzero").data ∧
      ScoreWith numberWordKeys (("110").data) (("oneten").data) = 1000 ∧
      ScoreWith numberWordKeysAlt (("110").data) (("oneten").data) = 0 := by
  refine ⟨⟨?_, ?_⟩, ⟨?_, ?_⟩, ?_, ?_, ?_, ?_⟩ <;> decide

/-- `ScoreWith` depends on the key ordering only through the expansion of
the query. -/
theorem scoreWith_congr (keys keys' : List Str) (query target : Str)
    (h : ExpandNumbersWith keys query = ExpandNumbersWith keys' query) :
    ScoreWith keys query target = ScoreWith keys' query target := by
  rw [ScoreWith, ScoreWith, h]

/-- C8 amended — scorer determinism holds on digit-free queries: for any
ordering of the numeral table the unstable length-descending sort could
produce, expansion leaves a digit-free query unchanged, so the score
agrees with the canonical ordering's score.  (On queries containing
overlapping equal-length numerals, such as `"110"`, the order among
equal-length keys does change the result; see the counterexample.) -/
theorem score_order_independent_digit_free (keys : List Str) (query target : Str)
    (hkeys : validKeyOrder keys) (hq : ∀ c ∈ query, c.isDigit = false) :
    ScoreWith keys query target = Score query target := by
  refine scoreWith_congr keys numberWordKeys query target ?_
  have h1 : ExpandNumbersWith keys query = query :=
    expandNumbersWith_eq_of_digit_free keys
      (fun k hk => numberWordKeys_heads k (hkeys.1.mem_iff.1 hk)) query hq
  have h2 : ExpandNumbersWith numberWordKeys query = query :=
    expandNumbersWith_eq_of_digit_free numberWordKeys numberWordKeys_heads query hq
  rw [h1, h2]

/-- Witness for `score_order_independent_digit_free` at a concrete
non-canonical ordering and digit-free query. -/
theorem score_order_independent_digit_free_witness :
    ScoreWith numberWordKeysAlt (("abc").data) (("zabc").data) =
      Score (("abc").data) (("zabc").data) :=
  score_order_independent_digit_free numberWordKeysAlt (("abc").data) (("zabc").data)
    ⟨by decide, by decide⟩ (by decide)

/-- Lower-casing never turns a character into or out of a digit. -/
theorem isDigit_toLower (c : Char) : (c.toLower).isDigit = c.isDigit := by
  have hdef : c.toLower =
      if c.toNat ≥ 65 ∧ c.toNat ≤ 90 then Char.ofNat (c.toNat + 32) else c := rfl
  rw [hdef]
  split
  case isTrue h =>
    have hrange : 65 ≤ c.toNat ∧ c.toNat ≤ 90 := h
    have hfalse : c.isDigit = false := by
      refine Bool.eq_false_iff.2 fun hd => ?_
      simp only [Char.isDigit, Bool.and_eq_true, decide_eq_true_eq] at hd
      have h2 : c.val.toNat ≤ 57 := hd.2
      have h3 : 65 ≤ c.val.toNat := hrange.1
      omega
    rw [hfalse]
    have hv : (c.toNat + 32).isValidChar := Or.inl (by
      have := hrange.2
      simp only [Char.toNat] at this ⊢
      omega)
    rw [Char.ofNat, dif_pos hv]
    have hval : (Char.ofNatAux (c.toNat + 32) hv).val.toNat = c.toNat + 32 := by
      simp [Char.ofNatAux, UInt32.toNat, BitVec.toNat_ofNatLt]
    refine Bool.eq_false_iff.2 fun hd => ?_
    simp only [Char.isDigit, Bool.and_eq_true, decide_eq_true_eq] at hd
    have h2 : (Char.ofNatAux (c.toNat + 32) hv).val.toNat ≤ 57 := hd.2
    have h3 : 65 ≤ c.toNat := hrange.1
    simp only [Char.toNat] at h3
    omega
  case isFalse _ => rfl

/-- Lower-casing a digit-free string yields a digit-free string. -/
theorem toLowerStr_digit_free (s : Str) (hs : ∀ c ∈ s, c.isDigit = false) :
    ∀ c ∈ toLowerStr s, c.isDigit = false := by
  intro c hc
  obtain ⟨d, hd, rfl⟩ := List.mem_map.1 hc
  rw [isDigit_toLower]
  exact hs d hd

/-- The subsequence walk scores at most 10 per query character plus a
single +5 bonus, available only while the cursor is at position 0. -/
theorem subseqWalk_le_bound (q : Str) : ∀ (t : Str) (pos sc : Nat),
    subseqWalk q t pos = some sc →
      sc ≤ 10 * q.length + (if pos = 0 then 5 else 0) := by
  induction q with
  | nil =>
    intro t pos sc h
    simp only [subseqWalk, Option.some.injEq] at h
    subst h
    exact Nat.zero_le _
  | cons c qs ih =>
    intro t pos sc h
    rw [subseqWalk] at h
    cases hf : findChar c t with
    | none => rw [hf] at h; cases h
    | some p =>
      obtain ⟨i, rest⟩ := p
      rw [hf] at h
      obtain ⟨sc', hsc', hval⟩ := Option.map_eq_some'.1 h
      have hb := ih rest (pos + i + 1) sc' hsc'
      rw [if_neg (Nat.succ_ne_zero _)] at hb
      subst hval
      have hite : (if pos + i = 0 then 5 else 0) ≤ (if pos = 0 then 5 else 0) := by
        by_cases hpi : pos + i = 0
        · rw [if_pos hpi, if_pos (by omega)]
        · rw [if_neg hpi]; split <;> omega
      simp only [List.length_cons]
      omega

set_option maxRecDepth 100000 in
/-- C3 counterexample — `Score` is not bounded by 1000: a 100-character
query matching a target as a subsequence from position 0 scores 1005;
and the empty query scores 0 against the empty target even though their
normalized forms are equal, so 1000 is not attained exactly on
normalized equality. -/
theorem score_bound_counterexample :
    Score (List.replicate 100 'a') (List.replicate 99 'a' ++ ['b', 'a']) = 1005 ∧
      Score [] [] = 0 ∧
      stripUnderscores ([] : Str) = stripUnderscores (ExpandNumbers ([] : Str)) := by
  refine ⟨by decide, rfl, rfl⟩

/-- C3 amended — for a nonempty query whose normalized form (number
expansion plus underscore stripping) has at most 99 characters, `Score`
is at most 1000, and equals 1000 exactly when the normalized query
equals the normalized target.  (For longer queries the score can exceed
1000, and the empty query scores 0 regardless of the target; see the
counterexample.) -/
theorem score_bounded_short_query (q t : Str) (hq : q ≠ [])
    (hlen : (stripUnderscores (ExpandNumbers q)).length ≤ 99) :
    Score q t ≤ 1000 ∧
      (Score q t = 1000 ↔ stripUnderscores t = stripUnderscores (ExpandNumbers q)) := by
  have hE : ExpandNumbers q = ExpandNumbersWith numberWordKeys q := rfl
  rw [hE] at hlen ⊢
  simp only [Score, ScoreWith]
  rw [if_neg hq]
  set nq := stripUnderscores (ExpandNumbersWith numberWordKeys q) with hnq
  set nt := stripUnderscores t with hnt
  by_cases he : nt = nq
  · rw [if_pos he]
    exact ⟨le_rfl, by simp [he]⟩
  · rw [if_neg he]
    by_cases hcont : containsStr nt nq = true
    · rw [if_pos hcont]
      have hle : 500 + nq.length + (if nq.isSuffixOf nt = true then 100 else 0) ≤ 699 := by
        split <;> omega
      exact ⟨by omega, fun h => absurd h (by omega), fun h => absurd h he⟩
    · rw [if_neg hcont]
      cases hw : subseqWalk nq nt 0 with
      | none =>
        dsimp only
        exact ⟨Nat.zero_le _, fun h => absurd h (by omega), fun h => absurd h he⟩
      | some sc =>
        dsimp only
        have hb := subseqWalk_le_bound nq nt 0 sc hw
        rw [if_pos rfl] at hb
        exact ⟨by omega, fun h => absurd h (by omega), fun h => absurd h he⟩

/-- Witness for `score_bounded_short_query` at a concrete short query. -/
theorem score_bounded_short_query_witness :
    Score (("ab").data) (("a_b").data) ≤ 1000 ∧
      (Score (("ab").data) (("a_b").data) = 1000 ↔
        stripUnderscores (("a_b").data) = stripUnderscores (ExpandNumbers (("ab").data))) :=
  score_bounded_short_query (("ab").data) (("a_b").data) (by decide) (by decide)

/-- The loop's best score never decreases and dominates the score of
every scanned entry. -/
theorem findBestAux_snd_ge (ql : Str) (ps : List KeyValue) :
    ∀ (best : Option KeyValue) (bs : Nat),
      bs ≤ (findBestAux ql ps best bs).2 ∧
        ∀ p ∈ ps, Score ql (toLowerStr p.Path) ≤ (findBestAux ql ps best bs).2 := by
  induction ps with
  | nil =>
    intro best bs
    exact ⟨le_rfl, by simp⟩
  | cons p ps ih =>
    intro best bs
    simp only [findBestAux]
    by_cases hlt : bs < Score ql (toLowerStr p.Path)
    · rw [if_pos hlt]
      obtain ⟨h1, h2⟩ := ih (some p) (Score ql (toLowerStr p.Path))
      refine ⟨le_trans (le_of_lt hlt) h1, ?_⟩
      intro x hx
      rcases List.mem_cons.1 hx with rfl | hx'
      · exact h1
      · exact h2 x hx'
    · rw [if_neg hlt]
      obtain ⟨h1, h2⟩ := ih best bs
      refine ⟨h1, ?_⟩
      intro x hx
      rcases List.mem_cons.1 hx with rfl | hx'
      · exact le_trans (Nat.le_of_not_lt hlt) h1
      · exact h2 x hx'

/-- The loop returns either its initial accumulator unchanged, or some
scanned entry together with that entry's score. -/
theorem findBestAux_fst_spec (ql : Str) (ps : List KeyValue) :
    ∀ (best : Option KeyValue) (bs : Nat),
      ((findBestAux ql ps best bs).1 = best ∧ (findBestAux ql ps best bs).2 = bs) ∨
        ∃ e ∈ ps, (findBestAux ql ps best bs).1 = some e ∧
          (findBestAux ql ps best bs).2 = Score ql (toLowerStr e.Path) := by
  induction ps with
  | nil =>
    intro best bs
    exact Or.inl ⟨rfl, rfl⟩
  | cons p ps ih =>
    intro best bs
    simp only [findBestAux]
    by_cases hlt : bs < Score ql (toLowerStr p.Path)
    · rw [if_pos hlt]
      rcases ih (some p) (Score ql (toLowerStr p.Path)) with ⟨h1, h2⟩ | ⟨e, he, h1, h2⟩
      · exact Or.inr ⟨p, List.mem_cons_self .., h1, h2⟩
      · exact Or.inr ⟨e, List.mem_cons_of_mem _ he, h1, h2⟩
    · rw [if_neg hlt]
      rcases ih best bs with h | ⟨e, he, h1, h2⟩
      · exact Or.inl h
      · exact Or.inr ⟨e, List.mem_cons_of_mem _ he, h1, h2⟩

/-- C2 — `FindBestMatch` fails, with a NoMatch `QueryError` carrying the
original query, exactly when the entry list is empty or every entry's
lower-cased path scores 0 against the lower-cased query; otherwise it
returns an entry of the list whose score is positive. -/
theorem findBestMatch_noMatch_spec (pairs : List KeyValue) (query : Str) :
    ((∃ e, FindBestMatch pairs query = .error e) ↔
        (pairs = [] ∨ ∀ p ∈ pairs, Score (toLowerStr query) (toLowerStr p.Path) = 0)) ∧
      (∀ e, FindBestMatch pairs query = .error e → e = NewQueryError query .errNoMatch) ∧
      (∀ p, FindBestMatch pairs query = .ok p →
        p ∈ pairs ∧ 0 < Score (toLowerStr query) (toLowerStr p.Path)) := by
  rcases hr : findBestAux (toLowerStr query) pairs none 0 with ⟨b, bs⟩
  have hge := findBestAux_snd_ge (toLowerStr query) pairs none 0
  have hfst := findBestAux_fst_spec (toLowerStr query) pairs none 0
  rw [hr] at hge hfst
  simp only at hge hfst
  cases b with
  | none =>
    have hbs : bs = 0 := by
      rcases hfst with ⟨_, h⟩ | ⟨e, _, h, _⟩
      · exact h
      · cases h
    subst hbs
    have hall : ∀ p ∈ pairs, Score (toLowerStr query) (toLowerStr p.Path) = 0 :=
      fun p hp => Nat.le_zero.1 (hge.2 p hp)
    have hfb : FindBestMatch pairs query = .error (NewQueryError query .errNoMatch) := by
      simp only [FindBestMatch, hr]
    refine ⟨⟨fun _ => Or.inr hall, fun _ => ⟨_, hfb⟩⟩, ?_, ?_⟩
    · intro e he'
      rw [hfb] at he'
      injection he' with h
      exact h.symm
    · intro p hp
      rw [hfb] at hp
      cases hp
  | some e0 =>
    obtain ⟨e, he, h1, h2⟩ :
        ∃ e ∈ pairs, (some e0 : Option KeyValue) = some e ∧
          bs = Score (toLowerStr query) (toLowerStr e.Path) := by
      rcases hfst with ⟨h, _⟩ | h
      · cases h
      · exact h
    obtain rfl : e0 = e := by injection h1
    by_cases hz : bs = 0
    · have hfb : FindBestMatch pairs query = .error (NewQueryError query .errNoMatch) := by
        simp only [FindBestMatch, hr, if_pos hz]
      have hall : ∀ p ∈ pairs, Score (toLowerStr query) (toLowerStr p.Path) = 0 :=
        fun p hp => by have := hge.2 p hp; omega
      refine ⟨⟨fun _ => Or.inr hall, fun _ => ⟨_, hfb⟩⟩, ?_, ?_⟩
      · intro e' he'
        rw [hfb] at he'
        injection he' with h
        exact h.symm
      · intro p hp
        rw [hfb] at hp
        cases hp
    · have hfb : FindBestMatch pairs query = .ok e0 := by
        simp only [FindBestMatch, hr, if_neg hz]
      refine ⟨⟨?_, ?_⟩, ?_, ?_⟩
      · rintro ⟨e', he'⟩
        rw [hfb] at he'
        cases he'
      · intro hrhs
        exfalso
        rcases hrhs with rfl | hall
        · exact absurd he (List.not_mem_nil e0)
        · exact hz (h2.trans (hall e0 he))
      · intro e' he'
        rw [hfb] at he'
        cases he'
      · intro p hp
        rw [hfb] at hp
        injection hp with h
        subst h
        exact ⟨he, by omega⟩

/-- Witness for `findBestMatch_noMatch_spec`: the positive-score branch
at a concrete singleton list. -/
theorem findBestMatch_noMatch_spec_witness :
    (⟨("abc").data, ("abc").data, JValue.jnum 7⟩ : KeyValue) ∈
        [(⟨("abc").data, ("abc").data, JValue.jnum 7⟩ : KeyValue)] ∧
      0 < Score (toLowerStr (("abc").data))
        (toLowerStr ((⟨("abc").data, ("abc").data, JValue.jnum 7⟩ : KeyValue).Path)) :=
  (findBestMatch_noMatch_spec [⟨("abc").data, ("abc").data, JValue.jnum 7⟩]
    (("abc").data)).2.2 _ rfl

/-- A digit-free nonempty query scores 1000 against itself: number
expansion leaves it unchanged, so the two normalized forms coincide. -/
theorem score_self_digit_free (q : Str) (hq : q ≠ [])
    (hd : ∀ c ∈ q, c.isDigit = false) : Score q q = 1000 := by
  simp only [Score, ScoreWith]
  rw [if_neg hq,
    expandNumbersWith_eq_of_digit_free numberWordKeys numberWordKeys_heads q hd,
    if_pos rfl]

/-- C1 counterexample — the exact-match identity law fails on paths
containing digits: the array-element path `a_1_b` of the flattened form
of the document with the single key `a` holding a one-element array is
scored 0 against itself (number expansion rewrites the query's `1` to
`one` but leaves the candidate path untouched), so the query `a_1_b`
yields NoMatch; and on a document with both a key `ab` and a nested
`a.b`, the query `a_b` returns the value of the entry `ab` seen first,
not the value of the entry whose path is `a_b`. -/
theorem findBestMatch_self_query_counterexample :
    ((⟨("a_1_b").data, ("b").data, .jnum 1⟩ : KeyValue) ∈
        FlattenData [(("a").data, .arr [.obj [(("b").data, .jnum 1)]])] []) ∧
      FindBestMatch (FlattenData [(("a").data, .arr [.obj [(("b").data, .jnum 1)]])] [])
          (("a_1_b").data) =
        .error (NewQueryError (("a_1_b").data) .errNoMatch) ∧
      ((⟨("a_b").data, ("b").data, .jnum 1⟩ : KeyValue) ∈
        FlattenData
          [(("ab").data, .jnum 2), (("a").data, .obj [(("b").data, .jnum 1)])] []) ∧
      FindBestMatch
          (FlattenData
            [(("ab").data, .jnum 2), (("a").data, .obj [(("b").data, .jnum 1)])] [])
          (("a_b").data) =
        .ok ⟨("ab").data, ("ab").data, .jnum 2⟩ := by
  have h1 : FlattenData [(("a").data, .arr [.obj [(("b").data, .jnum 1)]])] [] =
      [⟨("a_1_b").data, ("b").data, .jnum 1⟩] := by
    simp [FlattenData, flattenArr, natToDigits, natToDigitsF, digitChar]
  have h2 : FlattenData
      [(("ab").data, .jnum 2), (("a").data, .obj [(("b").data, .jnum 1)])] [] =
      [⟨("ab").data, ("ab").data, .jnum 2⟩, ⟨("a_b").data, ("b").data, .jnum 1⟩] := by
    simp [FlattenData, flattenArr]
  rw [h1, h2]
  refine ⟨List.mem_singleton.2 rfl, rfl, ?_, rfl⟩
  exact List.mem_cons_of_mem _ (List.mem_singleton.2 rfl)

/-- C1 amended — exact-match identity for digit-free paths: for every
flattened entry whose path is nonempty and contains no ASCII digit,
querying that path scores 1000 against itself and `FindBestMatch`
succeeds, returning an entry scoring at least 1000.  (On paths with
digits the law fails because number expansion rewrites only the query;
when several entries share a normalized lower-cased path, or some other
entry scores higher, the returned entry — and hence the value — may
differ from the queried one; see the counterexample.) -/
theorem findBestMatch_digit_free_identity (fields : List (Str × JValue))
    (P K : Str) (V : JValue)
    (hmem : (⟨P, K, V⟩ : KeyValue) ∈ FlattenData fields [])
    (hP : ∀ c ∈ P, c.isDigit = false) (hne : P ≠ []) :
    Score (toLowerStr P) (toLowerStr P) = 1000 ∧
      ∃ e, FindBestMatch (FlattenData fields []) P = .ok e ∧
        1000 ≤ Score (toLowerStr P) (toLowerStr e.Path) := by
  have hld := toLowerStr_digit_free P hP
  have hlne : toLowerStr P ≠ [] := by
    intro h
    exact hne (List.map_eq_nil_iff.1 h)
  have hself : Score (toLowerStr P) (toLowerStr P) = 1000 :=
    score_self_digit_free _ hlne hld
  refine ⟨hself, ?_⟩
  rcases hr : findBestAux (toLowerStr P) (FlattenData fields []) none 0 with ⟨b, bs⟩
  have hge := findBestAux_snd_ge (toLowerStr P) (FlattenData fields []) none 0
  have hfst := findBestAux_fst_spec (toLowerStr P) (FlattenData fields []) none 0
  rw [hr] at hge hfst
  simp only at hge hfst
  have hP0 : 1000 ≤ bs := by
    have h := hge.2 ⟨P, K, V⟩ hmem
    dsimp only at h
    rw [hself] at h
    exact h
  cases b with
  | none =>
    exfalso
    rcases hfst with ⟨_, h2⟩ | ⟨e, _, h1, _⟩
    · omega
    · cases h1
  | some e0 =>
    obtain ⟨e, he, h1, h2⟩ :
        ∃ e ∈ FlattenData fields [], (some e0 : Option KeyValue) = some e ∧
          bs = Score (toLowerStr P) (toLowerStr e.Path) := by
      rcases hfst with ⟨h, _⟩ | h
      · cases h
      · exact h
    obtain rfl : e0 = e := by injection h1
    have hbz : bs ≠ 0 := by omega
    refine ⟨e0, ?_, ?_⟩
    · simp only [FindBestMatch, hr, if_neg hbz]
    · rw [← h2]
      exact hP0

/-- Witness for `findBestMatch_digit_free_identity` at a concrete
one-entry document. -/
theorem findBestMatch_digit_free_identity_witness :
    Score (toLowerStr (("abc").data)) (toLowerStr (("abc").data)) = 1000 ∧
      ∃ e, FindBestMatch (FlattenData [(("abc").data, JValue.jnum 7)] [])
          (("abc").data) = .ok e ∧
        1000 ≤ Score (toLowerStr (("abc").data)) (toLowerStr e.Path) :=
  findBestMatch_digit_free_identity [(("abc").data, JValue.jnum 7)]
    (("abc").data) (("abc").data) (JValue.jnum 7)
    (by simp [FlattenData]) (by decide) (by decide)

/-- Joint induction: the flattener emits exactly one entry per non-null
scalar leaf, at every prefix. -/
theorem flatten_count_master :
    (∀ (fields : List (Str × JValue)) (pre : Str),
        (FlattenData fields pre).length = specScalarLeafCount fields) ∧
      ∀ (es : List JValue) (path : Str) (i : Nat),
        (flattenArr es path i).length = specArrLeafCount es := by
  refine FlattenData.mutual_induct
    (fun fields pre => (FlattenData fields pre).length = specScalarLeafCount fields)
    (fun es path i => (flattenArr es path i).length = specArrLeafCount es)
    ?_ ?_ ?_ ?_
  · intro pre
    simp [FlattenData, specScalarLeafCount]
  · intro k v rest pre hv hrest
    cases v <;> simp_all [FlattenData, specScalarLeafCount] <;> omega
  · intro path i
    simp [flattenArr, specArrLeafCount]
  · intro e es path i he hes
    cases e <;> simp_all [flattenArr, specArrLeafCount]

/-- Joint induction: every emitted entry's path is its key or ends in an
underscore followed by its key, and its value is scalar. -/
theorem flatten_shape_master :
    (∀ (fields : List (Str × JValue)) (pre : Str), ∀ e ∈ FlattenData fields pre,
        (e.Path = e.Key ∨ ∃ p, e.Path = p ++ '_' :: e.Key) ∧ isScalar e.Value = true) ∧
      ∀ (es : List JValue) (path : Str) (i : Nat), ∀ e ∈ flattenArr es path i,
        (e.Path = e.Key ∨ ∃ p, e.Path = p ++ '_' :: e.Key) ∧ isScalar e.Value = true := by
  refine FlattenData.mutual_induct
    (fun fields pre => ∀ e ∈ FlattenData fields pre,
      (e.Path = e.Key ∨ ∃ p, e.Path = p ++ '_' :: e.Key) ∧ isScalar e.Value = true)
    (fun es path i => ∀ e ∈ flattenArr es path i,
      (e.Path = e.Key ∨ ∃ p, e.Path = p ++ '_' :: e.Key) ∧ isScalar e.Value = true)
    ?_ ?_ ?_ ?_
  · intro pre e he
    simp [FlattenData] at he
  · intro k v rest pre hv hrest e he
    rw [FlattenData] at he
    rcases List.mem_append.1 he with hblk | hrest'
    · cases v with
      | obj f => exact hv e hblk
      | arr es => exact hv e hblk
      | jnull => simp at hblk
      | jbool b =>
        rw [List.mem_singleton] at hblk
        subst hblk
        refine ⟨?_, rfl⟩
        by_cases hpre : pre = []
        · rw [if_pos hpre]; exact Or.inl rfl
        · rw [if_neg hpre]; exact Or.inr ⟨pre, rfl⟩
      | jnum q =>
        rw [List.mem_singleton] at hblk
        subst hblk
        refine ⟨?_, rfl⟩
        by_cases hpre : pre = []
        · rw [if_pos hpre]; exact Or.inl rfl
        · rw [if_neg hpre]; exact Or.inr ⟨pre, rfl⟩
      | jstr s =>
        rw [List.mem_singleton] at hblk
        subst hblk
        refine ⟨?_, rfl⟩
        by_cases hpre : pre = []
        · rw [if_pos hpre]; exact Or.inl rfl
        · rw [if_neg hpre]; exact Or.inr ⟨pre, rfl⟩
    · exact hrest e hrest'
  · intro path i e he
    simp [flattenArr] at he
  · intro e es path i he hes x hx
    cases e with
    | obj m =>
      simp only [flattenArr, List.mem_append] at hx
      rcases hx with hblk | hrest'
      · exact he x hblk
      · exact hes x hrest'
    | jnull =>
      simp only [flattenArr, List.nil_append] at hx
      exact hes x hx
    | jbool b =>
      simp only [flattenArr, List.nil_append] at hx
      exact hes x hx
    | jnum q =>
      simp only [flattenArr, List.nil_append] at hx
      exact hes x hx
    | jstr s2 =>
      simp only [flattenArr, List.nil_append] at hx
      exact hes x hx
    | arr es2 =>
      simp only [flattenArr, List.nil_append] at hx
      exact hes x hx

/-- C5 — Skip-null law: flattening produces no entry for null leaves,
and the number of entries equals the spec's count of non-null scalar
leaves (scalar leaves of nested mappings and of mapping-shaped array
elements counted, non-mapping array elements excluded). -/
theorem flatten_skip_null_count (fields : List (Str × JValue)) :
    (FlattenData fields []).length = specScalarLeafCount fields ∧
      ∀ e ∈ FlattenData fields [], e.Value ≠ JValue.jnull := by
  refine ⟨flatten_count_master.1 fields [], fun e he hnull => ?_⟩
  have h := (flatten_shape_master.1 fields [] e he).2
  rw [hnull] at h
  cases h

/-- Witness for `flatten_skip_null_count` on the test document of the
source's flattener test (a null leaf, a nested mapping, an array with a
mapping-shaped and a scalar element, and a top-level scalar). -/
theorem flatten_skip_null_count_witness :
    (FlattenData
        [(("nil_value").data, JValue.jnull),
         (("nested").data, .obj [(("inner").data, .jnum 42)]),
         (("array").data, .arr [.obj [(("item").data, .jstr (("first").data))],
                                .jstr (("skip").data)]),
         (("simple").data, .jstr (("value").data))] []).length =
      specScalarLeafCount
        [(("nil_value").data, JValue.jnull),
         (("nested").data, .obj [(("inner").data, .jnum 42)]),
         (("array").data, .arr [.obj [(("item").data, .jstr (("first").data))],
                                .jstr (("skip").data)]),
         (("simple").data, .jstr (("value").data))] ∧
      (⟨("nested_inner").data, ("inner").data, JValue.jnum 42⟩ : KeyValue).Value ≠
        JValue.jnull :=
  ⟨(flatten_skip_null_count _).1,
   (flatten_skip_null_count
      [(("nil_value").data, JValue.jnull),
       (("nested").data, .obj [(("inner").data, .jnum 42)]),
       (("array").data, .arr [.obj [(("item").data, .jstr (("first").data))],
                              .jstr (("skip").data)]),
       (("simple").data, .jstr (("value").data))]).2 _
    (by simp [FlattenData, flattenArr, natToDigits, natToDigitsF, digitChar])⟩

/-- C10 — Every entry of `FlattenData(D, "")` has a path equal to its key
(top level) or ending in an underscore followed by its key, and a value
that is neither a mapping nor a sequence nor null. -/
theorem flatten_entry_shape (fields : List (Str × JValue)) :
    ∀ e ∈ FlattenData fields [],
      (e.Path = e.Key ∨ ∃ p, e.Path = p ++ '_' :: e.Key) ∧ isScalar e.Value = true :=
  flatten_shape_master.1 fields []

/-- Witness for `flatten_entry_shape` at a concrete nested entry. -/
theorem flatten_entry_shape_witness :
    ((⟨("a_b").data, ("b").data, JValue.jnum 1⟩ : KeyValue).Path =
          (⟨("a_b").data, ("b").data, JValue.jnum 1⟩ : KeyValue).Key ∨
        ∃ p, (⟨("a_b").data, ("b").data, JValue.jnum 1⟩ : KeyValue).Path =
          p ++ '_' :: (⟨("a_b").data, ("b").data, JValue.jnum 1⟩ : KeyValue).Key) ∧
      isScalar (⟨("a_b").data, ("b").data, JValue.jnum 1⟩ : KeyValue).Value = true :=
  flatten_entry_shape [(("a").data, .obj [(("b").data, .jnum 1)])] _
    (by simp [FlattenData])

theorem goodKey_ne_nil {k : Str} (h : goodKey k = true) : k ≠ [] := by
  simp only [goodKey, Bool.and_eq_true, Bool.not_eq_true'] at h
  intro hk
  subst hk
  simp at h

theorem goodKey_no_underscore {k : Str} (h : goodKey k = true) : '_' ∉ k := by
  simp only [goodKey, Bool.and_eq_true, List.all_eq_true] at h
  intro hmem
  have := h.2 '_' hmem
  simp at this

theorem headTok_append (k : Str) : ∀ s : Str, '_' ∉ k → underscoreSuffix s →
    headTok (k ++ s) = k := by
  induction k with
  | nil =>
    intro s _ hs
    rcases hs with rfl | ⟨t, rfl⟩
    · rfl
    · simp [headTok]
  | cons c k ih =>
    intro s hk hs
    have hc : ¬(c = '_') := fun h => hk (h ▸ List.mem_cons_self ..)
    have hk' : '_' ∉ k := fun h => hk (List.mem_cons_of_mem _ h)
    have hcb : (c == '_') = false := beq_eq_false_iff_ne.mpr hc
    show List.takeWhile (fun c => !(c == '_')) (c :: (k ++ s)) = c :: k
    rw [List.takeWhile_cons, hcb]
    simp only [Bool.not_false, if_pos rfl]
    exact congrArg (c :: ·) (ih s hk' hs)

/-- Two separator-terminated decompositions with underscore-free heads
agree on the head. -/
theorem token_head_cancel {k1 s1 k2 s2 : Str} (hk1 : '_' ∉ k1) (hk2 : '_' ∉ k2)
    (hs1 : underscoreSuffix s1) (hs2 : underscoreSuffix s2)
    (h : k1 ++ s1 = k2 ++ s2) : k1 = k2 := by
  rw [← headTok_append k1 s1 hk1 hs1, h, headTok_append k2 s2 hk2 hs2]

theorem digitChar_isDigit (n : Nat) : (digitChar n).isDigit = true := by
  unfold digitChar
  split <;> decide

theorem natToDigitsF_all_digit : ∀ (fuel n : Nat), ∀ c ∈ natToDigitsF fuel n,
    c.isDigit = true := by
  intro fuel
  induction fuel with
  | zero =>
    intro n c hc
    simp only [natToDigitsF, List.mem_singleton] at hc
    subst hc
    exact digitChar_isDigit _
  | succ fuel ih =>
    intro n c hc
    rw [natToDigitsF] at hc
    split at hc
    · rw [List.mem_singleton] at hc
      subst hc
      exact digitChar_isDigit _
    · rcases List.mem_append.1 hc with h | h
      · exact ih _ c h
      · rw [List.mem_singleton] at h
        subst h
        exact digitChar_isDigit _

theorem natToDigits_no_underscore (n : Nat) : '_' ∉ natToDigits n := by
  intro h
  have := natToDigitsF_all_digit n n '_' h
  exact absurd this (by decide)

theorem digitVal_digitChar (n : Nat) (h : n < 10) : (digitChar n).toNat - 48 = n := by
  interval_cases n <;> decide

theorem digitsVal_append_digit (s : Str) (c : Char) :
    digitsVal (s ++ [c]) = digitsVal s * 10 + (c.toNat - 48) := by
  simp [digitsVal, List.foldl_append]

theorem digitsVal_natToDigitsF : ∀ (fuel n : Nat), n ≤ fuel →
    digitsVal (natToDigitsF fuel n) = n := by
  intro fuel
  induction fuel with
  | zero =>
    intro n hn
    have : n = 0 := Nat.le_zero.1 hn
    subst this
    decide
  | succ fuel ih =>
    intro n hn
    rw [natToDigitsF]
    split
    case isTrue h =>
      show 0 * 10 + ((digitChar n).toNat - 48) = n
      rw [digitVal_digitChar n h]
      omega
    case isFalse h =>
      rw [digitsVal_append_digit]
      have hdiv : n / 10 ≤ fuel := by
        have := Nat.div_lt_self (by omega : 0 < n) (by omega : 1 < 10)
        omega
      rw [ih _ hdiv, digitVal_digitChar _ (Nat.mod_lt n (by omega))]
      omega

theorem natToDigits_inj {m n : Nat} (h : natToDigits m = natToDigits n) : m = n := by
  have hm : digitsVal (natToDigits m) = m := digitsVal_natToDigitsF m m le_rfl
  have hn : digitsVal (natToDigits n) = n := digitsVal_natToDigitsF n n le_rfl
  rw [← hm, ← hn, h]

/-- In a well-formed field list every key is nonempty and
underscore-free. -/
theorem wfFields_key_good (fields : List (Str × JValue)) :
    wfFields fields = true → ∀ k ∈ fields.map Prod.fst, k ≠ [] ∧ '_' ∉ k := by
  induction fields with
  | nil => intro _ k hk; simp at hk
  | cons p rest ih =>
    obtain ⟨k0, v0⟩ := p
    intro hwf k hk
    rw [wfFields] at hwf
    simp only [Bool.and_eq_true] at hwf
    rcases List.mem_map.1 hk with ⟨⟨k1, v1⟩, hmem, rfl⟩
    rcases List.mem_cons.1 hmem with heq | hmem'
    · obtain ⟨rfl, rfl⟩ : k1 = k0 ∧ v1 = v0 := by
        injection heq with h1 h2
        exact ⟨h1, h2⟩
      exact ⟨goodKey_ne_nil hwf.1.1.1, goodKey_no_underscore hwf.1.1.1⟩
    · exact ih hwf.2 _ (List.mem_map.2 ⟨(k1, v1), hmem', rfl⟩)

theorem pre_sep_cancel {pre x y : Str} (h : pre ++ '_' :: x = pre ++ '_' :: y) :
    x = y := by
  have h2 := List.append_cancel_left h
  simpa using h2

/-- Step lemma for one field: a block of entries all extending the
field's path is disjoint from the entries of the remaining fields,
whose paths extend sibling keys. -/
theorem flatten_cons_step (k pre : Str) (rest : List (Str × JValue))
    (block : List KeyValue)
    (hk_u : '_' ∉ k)
    (hk_ne_rest : ∀ k2 ∈ rest.map Prod.fst, k2 ≠ k)
    (hbn : (block.map KeyValue.Path).Nodup)
    (hbc : ∀ x ∈ block, ∃ s, underscoreSuffix s ∧
      x.Path = (if pre = [] then k else pre ++ '_' :: k) ++ s)
    (hndr : ((FlattenData rest pre).map KeyValue.Path).Nodup)
    (hchr : ∀ e ∈ FlattenData rest pre, ∃ k2 s2, k2 ∈ rest.map Prod.fst ∧
      '_' ∉ k2 ∧ underscoreSuffix s2 ∧
      e.Path = (if pre = [] then k2 else pre ++ '_' :: k2) ++ s2) :
    ((block ++ FlattenData rest pre).map KeyValue.Path).Nodup ∧
      ∀ e ∈ block ++ FlattenData rest pre, ∃ k0 s0,
        k0 ∈ k :: rest.map Prod.fst ∧ '_' ∉ k0 ∧ underscoreSuffix s0 ∧
        e.Path = (if pre = [] then k0 else pre ++ '_' :: k0) ++ s0 := by
  constructor
  · rw [List.map_append, List.nodup_append]
    refine ⟨hbn, hndr, ?_⟩
    intro x hx1 hx2
    rcases List.mem_map.1 hx1 with ⟨e1, he1, rfl⟩
    rcases List.mem_map.1 hx2 with ⟨e2, he2, hpe⟩
    obtain ⟨s, hs, h1⟩ := hbc e1 he1
    obtain ⟨k2, s2, hk2mem, hk2u, hs2, h2⟩ := hchr e2 he2
    have heq : (if pre = [] then k else pre ++ '_' :: k) ++ s =
        (if pre = [] then k2 else pre ++ '_' :: k2) ++ s2 := by
      rw [← h1, ← h2, hpe]
    have hk_eq : k = k2 := by
      by_cases hpre : pre = []
      · rw [if_pos hpre, if_pos hpre] at heq
        exact token_head_cancel hk_u hk2u hs hs2 heq
      · rw [if_neg hpre, if_neg hpre, List.append_assoc, List.append_assoc] at heq
        simp only [List.cons_append] at heq
        exact token_head_cancel hk_u hk2u hs hs2 (pre_sep_cancel heq)
    exact hk_ne_rest k2 hk2mem hk_eq.symm
  · intro e he
    rcases List.mem_append.1 he with hb | hr
    · obtain ⟨s, hs, h1⟩ := hbc e hb
      exact ⟨k, s, List.mem_cons_self .., hk_u, hs, h1⟩
    · obtain ⟨k2, s2, hmem, hu, hs2, h2⟩ := hchr e hr
      exact ⟨k2, s2, List.mem_cons_of_mem _ hmem, hu, hs2, h2⟩

/-- Step lemma for one array element: entries of the element at index
`i` carry the index token `i`, later elements carry strictly larger
index tokens, and decimal rendering is injective. -/
theorem flattenArr_cons_step (path : Str) (i : Nat) (es : List JValue)
    (block : List KeyValue)
    (hbn : (block.map KeyValue.Path).Nodup)
    (hbc : ∀ x ∈ block, ∃ u, x.Path = path ++ '_' :: (natToDigits i ++ ('_' :: u)))
    (hndr : ((flattenArr es path (i + 1)).map KeyValue.Path).Nodup)
    (hchr : ∀ e ∈ flattenArr es path (i + 1), ∃ j s, i + 1 ≤ j ∧
      (∃ t, s = '_' :: t) ∧ e.Path = path ++ '_' :: (natToDigits j ++ s)) :
    ((block ++ flattenArr es path (i + 1)).map KeyValue.Path).Nodup ∧
      ∀ e ∈ block ++ flattenArr es path (i + 1), ∃ j s, i ≤ j ∧
        (∃ t, s = '_' :: t) ∧ e.Path = path ++ '_' :: (natToDigits j ++ s) := by
  constructor
  · rw [List.map_append, List.nodup_append]
    refine ⟨hbn, hndr, ?_⟩
    intro x hx1 hx2
    rcases List.mem_map.1 hx1 with ⟨e1, he1, rfl⟩
    rcases List.mem_map.1 hx2 with ⟨e2, he2, hpe⟩
    obtain ⟨u, h1⟩ := hbc e1 he1
    obtain ⟨j, s2, hij, hs2, h2⟩ := hchr e2 he2
    have heq : path ++ '_' :: (natToDigits i ++ ('_' :: u)) =
        path ++ '_' :: (natToDigits j ++ s2) := by
      rw [← h1, ← h2, hpe]
    have hd : natToDigits i = natToDigits j :=
      token_head_cancel (natToDigits_no_underscore i) (natToDigits_no_underscore j)
        (Or.inr ⟨u, rfl⟩) (Or.inr hs2) (pre_sep_cancel heq)
    have := natToDigits_inj hd
    omega
  · intro e he
    rcases List.mem_append.1 he with hb | hr
    · obtain ⟨u, h1⟩ := hbc e hb
      exact ⟨i, '_' :: u, le_rfl, ⟨u, rfl⟩, h1⟩
    · obtain ⟨j, s2, hij, hs2, h2⟩ := hchr e hr
      exact ⟨j, s2, by omega, hs2, h2⟩

/-- Joint induction: on well-formed documents the flattener emits
pairwise distinct paths, and every path extends its field's path prefix
by a separator-terminated suffix. -/
theorem flatten_nodup_master :
    (∀ (fields : List (Str × JValue)) (pre : Str), wfFields fields = true →
        ((FlattenData fields pre).map KeyValue.Path).Nodup ∧
          ∀ e ∈ FlattenData fields pre, ∃ k s, k ∈ fields.map Prod.fst ∧
            '_' ∉ k ∧ underscoreSuffix s ∧
            e.Path = (if pre = [] then k else pre ++ '_' :: k) ++ s) ∧
      ∀ (es : List JValue) (path : Str) (i : Nat), wfElems es = true →
        ((flattenArr es path i).map KeyValue.Path).Nodup ∧
          ∀ e ∈ flattenArr es path i, ∃ j s, i ≤ j ∧ (∃ t, s = '_' :: t) ∧
            e.Path = path ++ '_' :: (natToDigits j ++ s) := by
  refine FlattenData.mutual_induct
    (fun fields pre => wfFields fields = true →
      ((FlattenData fields pre).map KeyValue.Path).Nodup ∧
        ∀ e ∈ FlattenData fields pre, ∃ k s, k ∈ fields.map Prod.fst ∧
          '_' ∉ k ∧ underscoreSuffix s ∧
          e.Path = (if pre = [] then k else pre ++ '_' :: k) ++ s)
    (fun es path i => wfElems es = true →
      ((flattenArr es path i).map KeyValue.Path).Nodup ∧
        ∀ e ∈ flattenArr es path i, ∃ j s, i ≤ j ∧ (∃ t, s = '_' :: t) ∧
          e.Path = path ++ '_' :: (natToDigits j ++ s))
    ?_ ?_ ?_ ?_
  · intro pre _
    constructor
    · simp [FlattenData]
    · intro e he
      simp [FlattenData] at he
  · intro k v rest pre hv hrest hwf
    rw [wfFields] at hwf
    simp only [Bool.and_eq_true] at hwf
    obtain ⟨⟨⟨hgk, hv'⟩, hk_rest⟩, hwf_rest⟩ := hwf
    have hk_ne : k ≠ [] := goodKey_ne_nil hgk
    have hk_u : '_' ∉ k := goodKey_no_underscore hgk
    have hk_ne_rest : ∀ k2 ∈ rest.map Prod.fst, k2 ≠ k := by
      intro k2 hk2
      rcases List.mem_map.1 hk2 with ⟨p, hp, rfl⟩
      have := List.all_eq_true.1 hk_rest p hp
      simpa using this
    have hpath_ne : (if pre = [] then k else pre ++ '_' :: k) ≠ [] := by
      split
      · exact hk_ne
      · simp
    obtain ⟨hndr, hchr⟩ := hrest hwf_rest
    cases v with
    | obj f =>
      rw [wfVal] at hv'
      obtain ⟨hbn, hbc⟩ := hv hv'
      simp only [dite_eq_ite] at hbn hbc
      have hbc' : ∀ x ∈ FlattenData f (if pre = [] then k else pre ++ '_' :: k),
          ∃ s, underscoreSuffix s ∧
            x.Path = (if pre = [] then k else pre ++ '_' :: k) ++ s := by
        intro x hx
        obtain ⟨k', s', _, _, _, hpe⟩ := hbc x hx
        refine ⟨'_' :: (k' ++ s'), Or.inr ⟨_, rfl⟩, ?_⟩
        rw [hpe, if_neg hpath_ne]
        simp [List.append_assoc]
      have hmain := flatten_cons_step k pre rest _ hk_u hk_ne_rest hbn hbc' hndr hchr
      simp only [FlattenData, List.map_cons, dite_eq_ite]
      exact hmain
    | arr es =>
      rw [wfVal] at hv'
      obtain ⟨hbn, hbc⟩ := hv hv'
      simp only [dite_eq_ite] at hbn hbc
      have hbc' : ∀ x ∈ flattenArr es (if pre = [] then k else pre ++ '_' :: k) 1,
          ∃ s, underscoreSuffix s ∧
            x.Path = (if pre = [] then k else pre ++ '_' :: k) ++ s := by
        intro x hx
        obtain ⟨j, s', _, _, hpe⟩ := hbc x hx
        exact ⟨'_' :: (natToDigits j ++ s'), Or.inr ⟨_, rfl⟩, hpe⟩
      have hmain := flatten_cons_step k pre rest _ hk_u hk_ne_rest hbn hbc' hndr hchr
      simp only [FlattenData, List.map_cons, dite_eq_ite]
      exact hmain
    | jnull =>
      have hmain := flatten_cons_step k pre rest [] hk_u hk_ne_rest (by simp)
        (by intro x hx; cases hx) hndr hchr
      simp only [FlattenData, List.map_cons, dite_eq_ite]
      exact hmain
    | jbool b =>
      have hmain := flatten_cons_step k pre rest
        [⟨(if pre = [] then k else pre ++ '_' :: k), k, JValue.jbool b⟩] hk_u hk_ne_rest
        (by simp)
        (by
          intro x hx
          rw [List.mem_singleton] at hx
          subst hx
          exact ⟨[], Or.inl rfl, (List.append_nil _).symm⟩)
        hndr hchr
      simp only [FlattenData, List.map_cons, dite_eq_ite]
      exact hmain
    | jnum q =>
      have hmain := flatten_cons_step k pre rest
        [⟨(if pre = [] then k else pre ++ '_' :: k), k, JValue.jnum q⟩] hk_u hk_ne_rest
        (by simp)
        (by
          intro x hx
          rw [List.mem_singleton] at hx
          subst hx
          exact ⟨[], Or.inl rfl, (List.append_nil _).symm⟩)
        hndr hchr
      simp only [FlattenData, List.map_cons, dite_eq_ite]
      exact hmain
    | jstr s2 =>
      have hmain := flatten_cons_step k pre rest
        [⟨(if pre = [] then k else pre ++ '_' :: k), k, JValue.jstr s2⟩] hk_u hk_ne_rest
        (by simp)
        (by
          intro x hx
          rw [List.mem_singleton] at hx
          subst hx
          exact ⟨[], Or.inl rfl, (List.append_nil _).symm⟩)
        hndr hchr
      simp only [FlattenData, List.map_cons, dite_eq_ite]
      exact hmain
  · intro path i _
    constructor
    · simp [flattenArr]
    · intro e he
      simp [flattenArr] at he
  · intro e es path i he hes hwf
    cases e with
    | obj m =>
      rw [wfElems] at hwf
      simp only [Bool.and_eq_true] at hwf
      obtain ⟨hwfe, hwfes⟩ := hwf
      obtain ⟨hndr, hchr⟩ := hes hwfes
      obtain ⟨hbn, hbc⟩ := he hwfe
      have hbc' : ∀ x ∈ FlattenData m (path ++ '_' :: natToDigits i), ∃ u,
          x.Path = path ++ '_' :: (natToDigits i ++ ('_' :: u)) := by
        intro x hx
        obtain ⟨k', s', _, _, _, hpe⟩ := hbc x hx
        refine ⟨k' ++ s', ?_⟩
        rw [hpe, if_neg (by simp)]
        simp [List.append_assoc]
      have hmain := flattenArr_cons_step path i es _ hbn hbc' hndr hchr
      simp only [flattenArr, dite_eq_ite]
      exact hmain
    | jnull =>
      have hwfes : wfElems es = true := by
        simpa [wfElems] using hwf
      obtain ⟨hndr, hchr⟩ := hes hwfes
      have hmain := flattenArr_cons_step path i es [] (by simp)
        (by intro x hx; cases hx) hndr hchr
      simp only [flattenArr, dite_eq_ite]
      exact hmain
    | jbool b =>
      have hwfes : wfElems es = true := by
        simpa [wfElems] using hwf
      obtain ⟨hndr, hchr⟩ := hes hwfes
      have hmain := flattenArr_cons_step path i es [] (by simp)
        (by intro x hx; cases hx) hndr hchr
      simp only [flattenArr, dite_eq_ite]
      exact hmain
    | jnum q =>
      have hwfes : wfElems es = true := by
        simpa [wfElems] using hwf
      obtain ⟨hndr, hchr⟩ := hes hwfes
      have hmain := flattenArr_cons_step path i es [] (by simp)
        (by intro x hx; cases hx) hndr hchr
      simp only [flattenArr, dite_eq_ite]
      exact hmain
    | jstr s2 =>
      have hwfes : wfElems es = true := by
        simpa [wfElems] using hwf
      obtain ⟨hndr, hchr⟩ := hes hwfes
      have hmain := flattenArr_cons_step path i es [] (by simp)
        (by intro x hx; cases hx) hndr hchr
      simp only [flattenArr, dite_eq_ite]
      exact hmain
    | arr es2 =>
      have hwfes : wfElems es = true := by
        simpa [wfElems] using hwf
      obtain ⟨hndr, hchr⟩ := hes hwfes
      have hmain := flattenArr_cons_step path i es [] (by simp)
        (by intro x hx; cases hx) hndr hchr
      simp only [flattenArr, dite_eq_ite]
      exact hmain

/-- C4 counterexample — path uniqueness fails by construction when keys
may contain the separator or be empty: a key `a_b` collides with the
nested `b` under `a`, and an empty key makes its children collide with
top-level keys. -/
theorem flatten_path_uniqueness_counterexample :
    ¬ ((FlattenData
        [(("a").data, .obj [(("b").data, .jnum 1)]), (("a_b").data, .jnum 2)]
        []).map KeyValue.Path).Nodup ∧
      ¬ ((FlattenData
          [(("").data, .obj [(("a").data, .jnum 1)]), (("a").data, .jnum 2)]
          []).map KeyValue.Path).Nodup := by
  have h1 : FlattenData
      [(("a").data, .obj [(("b").data, .jnum 1)]), (("a_b").data, .jnum 2)] [] =
      [⟨("a_b").data, ("b").data, .jnum 1⟩, ⟨("a_b").data, ("a_b").data, .jnum 2⟩] := by
    simp [FlattenData]
  have h2 : FlattenData
      [(("").data, .obj [(("a").data, .jnum 1)]), (("a").data, .jnum 2)] [] =
      [⟨("a").data, ("a").data, .jnum 1⟩, ⟨("a").data, ("a").data, .jnum 2⟩] := by
    simp [FlattenData]
  rw [h1, h2]
  exact ⟨by decide, by decide⟩

/-- C4 amended — path uniqueness holds for documents whose keys are all
nonempty and underscore-free (with per-mapping key uniqueness, which
Go's map type guarantees and the association-list model states as
`wfFields`): the paths of `FlattenData(D, "")` are then pairwise
distinct.  With separator characters or empty keys in document keys,
distinct ancestor chains can compose the same path string; see the
counterexample. -/
theorem flatten_paths_nodup_of_wf (fields : List (Str × JValue))
    (hwf : wfFields fields = true) :
    ((FlattenData fields []).map KeyValue.Path).Nodup :=
  (flatten_nodup_master.1 fields [] hwf).1

/-- Witness for `flatten_paths_nodup_of_wf` on a concrete well-formed
document with nesting and an array. -/
theorem flatten_paths_nodup_of_wf_witness :
    wfFields
        [(("a").data, JValue.obj [(("b").data, .jnum 1)]),
         (("c").data, JValue.arr [.obj [(("b").data, .jnum 2)],
                                  .obj [(("b").data, .jnum 3)]]),
         (("ab").data, .jnum 4)] = true ∧
      ((FlattenData
          [(("a").data, JValue.obj [(("b").data, .jnum 1)]),
           (("c").data, JValue.arr [.obj [(("b").data, .jnum 2)],
                                    .obj [(("b").data, .jnum 3)]]),
           (("ab").data, .jnum 4)] []).map KeyValue.Path).Nodup := by
  have hwf : wfFields
      [(("a").data, JValue.obj [(("b").data, .jnum 1)]),
       (("c").data, JValue.arr [.obj [(("b").data, .jnum 2)],
                                .obj [(("b").data, .jnum 3)]]),
       (("ab").data, .jnum 4)] = true := by
    simp only [wfFields, wfVal, wfElems]
    decide
  exact ⟨hwf, flatten_paths_nodup_of_wf _ hwf⟩

end Fuzzy
end ClaudeLimits
